import Mathlib

/-
Verification of the V8 timed-histogram scope helpers
(src/logging/counters-scopes.h) against their specification.

The file shallowly embeds the scope classes:
  - BaseTimedHistogramScope (Start/Stop/LogStart/LogEnd)
  - TimedHistogramScope (plain scope)
  - OptionalTimedHistogramScope (mode-gated scope)
  - LazyTimedHistogramScope (histogram chosen at stop time)
  - NestedTimedHistogramScope and PauseNestedTimedHistogramScope
    (the per-histogram scope stack with pause/resume)
Timestamps are natural numbers (microseconds).  External collaborators
that are declared outside this header (base::ElapsedTimer, the
NestedTimedHistogram Enter/Leave stack interface, Logger::CallEventLogger)
are modelled from the specification, as marked on their definitions.
-/

namespace CountersScopes

/-- Log event status, mirroring v8::LogEventStatus kStart / kEnd. -/
inductive LogEventStatus where
  | kStart
  | kEnd
deriving Repr, DecidableEq

/-- Modelled from the spec: base::ElapsedTimer (not under src/).  A monotonic
duration accumulator with an accumulated elapsed amount, a running/paused
state, and an internal running-start tick; paused timers do not advance and
resuming restarts advancement from the resume instant. -/
structure ElapsedTimer where
  started : Bool
  paused : Bool
  acc : Nat
  startTick : Nat
deriving Repr, DecidableEq

/-- Modelled from the spec: a default-constructed timer, not yet started. -/
def ElapsedTimer.init : ElapsedTimer := ⟨false, false, 0, 0⟩

/-- Modelled from the spec: ElapsedTimer::Start(now). -/
def ElapsedTimer.start (now : Nat) : ElapsedTimer := ⟨true, false, 0, now⟩

/-- Modelled from the spec: ElapsedTimer::Pause(now) banks the duration since
the running-start into the accumulator and stops advancing. -/
def ElapsedTimer.pause (tm : ElapsedTimer) (now : Nat) : ElapsedTimer :=
  { tm with paused := true, acc := tm.acc + (now - tm.startTick) }

/-- Modelled from the spec: ElapsedTimer::Resume(now) restarts advancement
from the resume instant, keeping the accumulated duration. -/
def ElapsedTimer.resume (tm : ElapsedTimer) (now : Nat) : ElapsedTimer :=
  { tm with paused := false, startTick := now }

/-- Modelled from the spec: ElapsedTimer::Elapsed(now) is the accumulated
duration, plus (now - running-start) while advancing. -/
def ElapsedTimer.elapsed (tm : ElapsedTimer) (now : Nat) : Nat :=
  if tm.paused then tm.acc else tm.acc + (now - tm.startTick)

/-- Modelled from the spec: ElapsedTimer::Stop() ends the measurement. -/
def ElapsedTimer.stop (tm : ElapsedTimer) : ElapsedTimer :=
  { tm with started := false }

/-- Static configuration of one histogram, fixed for a scope's lifetime
(the spec forbids toggling enabled() mid-scope): the Enabled() flag and
whether this histogram is identical to counters()->execute(), the
designated primary-execution histogram used by RecordLongTaskTime. -/
structure HistConfig where
  enabled : Bool
  isExecute : Bool
deriving Repr, DecidableEq

/-- A live NestedTimedHistogramScope object: its timer_, its
previous_scope_ back-reference (none = nullptr), and its
long_task_record_mode_ flag (true = kRecord). -/
structure ScopeRec where
  timer : ElapsedTimer
  prev : Option Nat
  longTask : Bool
deriving Repr, DecidableEq

/-- Dynamic state of one histogram together with its live scope objects:
the histogram's current_ top-of-stack pointer (none = nullptr, holding
either the empty stack or a pause placeholder), the live
NestedTimedHistogramScope objects keyed by identity, the live
PauseNestedTimedHistogramScope objects with their captured previous_scope_,
the recorded samples, the long-task aggregate (v8_execute_us) and the
emitted log events. -/
structure NestedHistState where
  current : Option Nat
  scopes : List (Nat × ScopeRec)
  pauseScopes : List (Nat × Option Nat)
  samples : List Nat
  longTaskUs : Nat
  events : List LogEventStatus
deriving Repr, DecidableEq

/-- The initial state: empty stack, no live scopes, nothing recorded. -/
def initNestedState : NestedHistState := ⟨none, [], [], [], 0, []⟩

/-- Look up a live nested scope object by identity. -/
def findScope : List (Nat × ScopeRec) → Nat → Option ScopeRec
  | [], _ => none
  | e :: rest, id => if e.1 = id then some e.2 else findScope rest id

/-- Apply a timer operation to the scope object with the given identity. -/
def setScopeTimer (scopes : List (Nat × ScopeRec)) (id : Nat)
    (f : ElapsedTimer → ElapsedTimer) : List (Nat × ScopeRec) :=
  scopes.map fun e => if e.1 = id then (e.1, { e.2 with timer := f e.2.timer }) else e

/-- Remove a scope object (its destructor finished). -/
def removeScope (scopes : List (Nat × ScopeRec)) (id : Nat) :
    List (Nat × ScopeRec) :=
  scopes.filter fun e => e.1 != id

/-- Look up a live pause scope's captured previous_scope_. -/
def findPause : List (Nat × Option Nat) → Nat → Option (Option Nat)
  | [], _ => none
  | e :: rest, pid => if e.1 = pid then some e.2 else findPause rest pid

/-- Remove a pause scope object (its destructor finished). -/
def removePause (ps : List (Nat × Option Nat)) (pid : Nat) :
    List (Nat × Option Nat) :=
  ps.filter fun e => e.1 != pid

/-- Modelled from the spec: NestedTimedHistogram::Enter (declared in
counters.h, not under src/) installs a new top of stack and returns the
previous top. -/
def histEnter (st : NestedHistState) (next : Option Nat) :
    Option Nat × NestedHistState :=
  (st.current, { st with current := next })

/-- Modelled from the spec: NestedTimedHistogram::Leave (declared in
counters.h, not under src/) restores the top of stack to a given
previous top. -/
def histLeave (st : NestedHistState) (previous : Option Nat) : NestedHistState :=
  { st with current := previous }

/-- NestedTimedHistogramScope::StartInteral: Enter self, pause the previous
top (if any) at the current instant, and start self's timer at that same
instant.  The new scope object is recorded with its previous_scope_. -/
def nestedScopeStartInteral (st : NestedHistState) (id : Nat) (longTask : Bool)
    (now : Nat) : NestedHistState :=
  let (previous, st1) := histEnter st (some id)
  let st2 := match previous with
    | some p => { st1 with scopes := setScopeTimer st1.scopes p (fun tm => tm.pause now) }
    | none => st1
  { st2 with scopes := (id, ⟨ElapsedTimer.start now, previous, longTask⟩) :: st2.scopes }

/-- NestedTimedHistogramScope::Start: StartInteral only when the histogram
is enabled; the start log event fires unconditionally. -/
def nestedScopeStart (cfg : HistConfig) (st : NestedHistState) (id : Nat)
    (longTask : Bool) (now : Nat) : NestedHistState :=
  let st1 := if cfg.enabled then nestedScopeStartInteral st id longTask now else st
  { st1 with events := st1.events ++ [LogEventStatus.kStart] }

/-- NestedTimedHistogramScope::RecordLongTaskTime: add the elapsed duration
to the long-task aggregate only when this histogram is
counters()->execute(). -/
def recordLongTaskTime (cfg : HistConfig) (st : NestedHistState)
    (elapsed : Nat) : NestedHistState :=
  if cfg.isExecute then { st with longTaskUs := st.longTaskUs + elapsed } else st

/-- NestedTimedHistogramScope::StopInternal: Leave to previous_scope_,
compute the elapsed duration, record it as a sample (and into the
long-task aggregate when the mode is kRecord), resume the previous scope
(if any) at the same instant, then the scope object is destroyed. -/
def nestedScopeStopInternal (cfg : HistConfig) (st : NestedHistState) (id : Nat)
    (now : Nat) : NestedHistState :=
  match findScope st.scopes id with
  | none => st
  | some r =>
    let st1 := histLeave st r.prev
    let elapsed := r.timer.elapsed now
    let st2 := { st1 with samples := st1.samples ++ [elapsed] }
    let st3 := if r.longTask then recordLongTaskTime cfg st2 elapsed else st2
    let st4 := match r.prev with
      | some p => { st3 with scopes := setScopeTimer st3.scopes p (fun tm => tm.resume now) }
      | none => st3
    { st4 with scopes := removeScope st4.scopes id }

/-- NestedTimedHistogramScope::Stop: StopInternal only when the histogram
is enabled; the end log event fires unconditionally. -/
def nestedScopeStop (cfg : HistConfig) (st : NestedHistState) (id : Nat)
    (now : Nat) : NestedHistState :=
  let st1 := if cfg.enabled then nestedScopeStopInternal cfg st id now else st
  { st1 with events := st1.events ++ [LogEventStatus.kEnd] }

/-- PauseNestedTimedHistogramScope::Pause: Enter(nullptr) captures the
previous top and installs the null placeholder; the previous scope, when
present, is paused at the current instant. -/
def pauseScopePause (st : NestedHistState) (pid : Nat) (now : Nat) :
    NestedHistState :=
  let (previous, st1) := histEnter st none
  let st2 := match previous with
    | some p => { st1 with scopes := setScopeTimer st1.scopes p (fun tm => tm.pause now) }
    | none => st1
  { st2 with pauseScopes := (pid, previous) :: st2.pauseScopes }

/-- PauseNestedTimedHistogramScope constructor: previous_scope_ starts as
nullptr; Pause() runs only when the histogram is enabled. -/
def pauseScopeCtor (cfg : HistConfig) (st : NestedHistState) (pid : Nat)
    (now : Nat) : NestedHistState :=
  if cfg.enabled then pauseScopePause st pid now
  else { st with pauseScopes := (pid, none) :: st.pauseScopes }

/-- PauseNestedTimedHistogramScope::Resume: Leave back to the captured
previous scope and resume its timer at the current instant. -/
def pauseScopeResume (st : NestedHistState) (p : Nat) (now : Nat) :
    NestedHistState :=
  let st1 := histLeave st (some p)
  { st1 with scopes := setScopeTimer st1.scopes p (fun tm => tm.resume now) }

/-- PauseNestedTimedHistogramScope destructor: Resume() runs only when a
previous scope was captured and the histogram is enabled; then the pause
scope object is destroyed. -/
def pauseScopeDtor (cfg : HistConfig) (st : NestedHistState) (pid : Nat)
    (now : Nat) : NestedHistState :=
  let prev := (findPause st.pauseScopes pid).getD none
  let st1 := match prev with
    | some p => if cfg.enabled then pauseScopeResume st p now else st
    | none => st
  { st1 with pauseScopes := removePause st1.pauseScopes pid }

/-- The four observable lifecycle events of the nested-scope family:
constructing / destroying a NestedTimedHistogramScope and constructing /
destroying a PauseNestedTimedHistogramScope, each at a timestamp. -/
inductive NEvent where
  | enter (id : Nat) (longTask : Bool) (t : Nat)
  | leave (id : Nat) (t : Nat)
  | beginPause (pid : Nat) (t : Nat)
  | endPause (pid : Nat) (t : Nat)
deriving Repr, DecidableEq

/-- One lifecycle step of the nested-scope family. -/
def stepN (cfg : HistConfig) (st : NestedHistState) : NEvent → NestedHistState
  | .enter id longTask t => nestedScopeStart cfg st id longTask t
  | .leave id t => nestedScopeStop cfg st id t
  | .beginPause pid t => pauseScopeCtor cfg st pid t
  | .endPause pid t => pauseScopeDtor cfg st pid t

/-- Run a sequence of lifecycle events from the initial state. -/
def runN (cfg : HistConfig) (evs : List NEvent) : NestedHistState :=
  evs.foldl (stepN cfg) initNestedState

/-- An enabled histogram that is not the primary-execution histogram. -/
def enabledCfg : HistConfig := ⟨true, false⟩

/-- When a pause scope identity does not occur in the live pause-scope list,
every entry has a different key. -/
theorem findPause_none_not_mem (ps : List (Nat × Option Nat)) (pid : Nat)
    (h : findPause ps pid = none) : ∀ a ∈ ps, (a.1 != pid) = true := by
  induction ps with
  | nil => intro a ha; simp at ha
  | cons e rest ih =>
    intro a ha
    by_cases he : e.1 = pid
    · rw [findPause, if_pos he] at h
      exact absurd h (by simp)
    · rw [findPause, if_neg he] at h
      rcases List.mem_cons.mp ha with rfl | hrest
      · simp [bne, he]
      · exact ih h a hrest

/-- When a pause scope identity does not occur in the live pause-scope list,
removing it is a no-op. -/
theorem removePause_of_findPause_none (ps : List (Nat × Option Nat)) (pid : Nat)
    (h : findPause ps pid = none) : removePause ps pid = ps := by
  rw [removePause]
  exact List.filter_eq_self.mpr (findPause_none_not_mem ps pid h)

/-- Claim C3: a Pause Scope created while a Nested Scope is on top of an
enabled histogram's stack pauses that scope's timer at construction and
resumes it at destruction, so the paused interval is excluded from the
recorded sample: entering A at t0, pausing over [t1, t2] and leaving A at
t3 records (t3 - t0) - (t2 - t1), with A's timer paused after the pause
construction and advancing again after the pause destruction. -/
theorem pause_scope_excludes_interval (t0 t1 t2 t3 : Nat)
    (h01 : t0 ≤ t1) (h12 : t1 ≤ t2) (h23 : t2 ≤ t3) :
    (runN enabledCfg [.enter 0 false t0, .beginPause 7 t1, .endPause 7 t2,
        .leave 0 t3]).samples = [(t3 - t0) - (t2 - t1)] ∧
    findScope (runN enabledCfg [.enter 0 false t0, .beginPause 7 t1]).scopes 0
      = some ⟨⟨true, true, t1 - t0, t0⟩, none, false⟩ ∧
    findScope (runN enabledCfg [.enter 0 false t0, .beginPause 7 t1,
        .endPause 7 t2]).scopes 0
      = some ⟨⟨true, false, t1 - t0, t2⟩, none, false⟩ := by
  refine ⟨?_, ?_, ?_⟩ <;>
    simp [runN, stepN, initNestedState, enabledCfg, nestedScopeStart,
      nestedScopeStartInteral, nestedScopeStop, nestedScopeStopInternal,
      pauseScopeCtor, pauseScopePause, pauseScopeDtor, pauseScopeResume,
      histEnter, histLeave, findScope, findPause, setScopeTimer, removeScope,
      removePause, ElapsedTimer.start, ElapsedTimer.pause,
      ElapsedTimer.resume, ElapsedTimer.elapsed, recordLongTaskTime] <;>
    omega

/-- Claim C3 witness: scenario B at t = 0, 5, 25, 40 records A = 20, with
A's timer paused at t = 5 and advancing again from t = 25. -/
theorem pause_scope_excludes_interval_witness :
    (runN enabledCfg [.enter 0 false 0, .beginPause 7 5, .endPause 7 25,
        .leave 0 40]).samples = [20] ∧
    findScope (runN enabledCfg [.enter 0 false 0, .beginPause 7 5]).scopes 0
      = some ⟨⟨true, true, 5, 0⟩, none, false⟩ ∧
    findScope (runN enabledCfg [.enter 0 false 0, .beginPause 7 5,
        .endPause 7 25]).scopes 0
      = some ⟨⟨true, false, 5, 25⟩, none, false⟩ := by
  have h := pause_scope_excludes_interval 0 5 25 40
    (by decide) (by decide) (by decide)
  simpa using h

/-- Claim C4: a Pause Scope created on an enabled histogram whose scope
stack is empty captures no previous top, so its destruction performs no
resume and no stack mutation: the construction/destruction pair returns
the state unchanged. -/
theorem pause_scope_empty_stack_no_resume (cfg : HistConfig)
    (st : NestedHistState) (pid t1 t2 : Nat) (hcur : st.current = none)
    (hfresh : findPause st.pauseScopes pid = none) :
    stepN cfg (stepN cfg st (.beginPause pid t1)) (.endPause pid t2) = st := by
  obtain ⟨cur, scopes, ps, samples, ltu, ev⟩ := st
  simp only at hcur hfresh
  subst hcur
  have hrm : List.filter (fun e => e.1 != pid) ps = ps :=
    removePause_of_findPause_none ps pid hfresh
  cases he : cfg.enabled <;>
    simp [stepN, pauseScopeCtor, pauseScopePause, pauseScopeDtor,
      pauseScopeResume, histEnter, histLeave, he, findPause, removePause,
      List.filter_cons, hrm]

/-- Claim C4 witness: on the empty initial state, constructing and
destroying a pause scope at t = 5 and t = 25 leaves the state unchanged. -/
theorem pause_scope_empty_stack_no_resume_witness :
    stepN enabledCfg (stepN enabledCfg initNestedState (.beginPause 0 5))
      (.endPause 0 25) = initNestedState :=
  pause_scope_empty_stack_no_resume enabledCfg initNestedState 0 5 25
    (by decide) (by decide)

/-- Claim C5: for a Nested Scope on a histogram whose enabled() is false
for the scope's full lifetime, enter and leave record no sample and mutate
neither the stack top, nor any timer, nor the pause scopes, nor the
long-task aggregate, yet both the start and the end log events are
emitted. -/
theorem disabled_scope_only_logs (cfg : HistConfig) (st : NestedHistState)
    (id : Nat) (longTask : Bool) (t1 t2 : Nat) (hdis : cfg.enabled = false) :
    stepN cfg (stepN cfg st (.enter id longTask t1)) (.leave id t2)
      = { st with events := st.events
            ++ [LogEventStatus.kStart, LogEventStatus.kEnd] } := by
  simp [stepN, nestedScopeStart, nestedScopeStop, hdis]

/-- Claim C5 witness: on a disabled histogram, entering at t = 3 and
leaving at t = 9 from the initial state only appends the two log events. -/
theorem disabled_scope_only_logs_witness :
    stepN ⟨false, false⟩ (stepN ⟨false, false⟩ initNestedState
        (.enter 0 false 3)) (.leave 0 9)
      = { initNestedState with events := [LogEventStatus.kStart,
            LogEventStatus.kEnd] } := by
  have h := disabled_scope_only_logs ⟨false, false⟩ initNestedState 0 false 3 9
    (by decide)
  simpa [initNestedState] using h

/-- Claim C6: the long-task aggregate changes only on a Nested Scope leave
where both the long-task recording flag of the leaving scope is set and the
histogram is the designated primary-execution histogram (and the histogram
is enabled, so that StopInternal runs at all); enters and pause scopes
never change it, and when a leave changes it, it increases by exactly the
leaving scope's elapsed duration. -/
theorem long_task_counter_changes_only_on_leave (cfg : HistConfig)
    (st : NestedHistState) :
    (∀ id longTask t,
      (stepN cfg st (.enter id longTask t)).longTaskUs = st.longTaskUs) ∧
    (∀ pid t,
      (stepN cfg st (.beginPause pid t)).longTaskUs = st.longTaskUs) ∧
    (∀ pid t,
      (stepN cfg st (.endPause pid t)).longTaskUs = st.longTaskUs) ∧
    (∀ id t,
      (stepN cfg st (.leave id t)).longTaskUs = st.longTaskUs +
        (if cfg.enabled then
          match findScope st.scopes id with
          | some r => if r.longTask && cfg.isExecute then r.timer.elapsed t
                      else 0
          | none => 0
         else 0)) := by
  refine ⟨?_, ?_, ?_, ?_⟩
  · intro id longTask t
    cases he : cfg.enabled <;>
      simp [stepN, nestedScopeStart, nestedScopeStartInteral, histEnter, he]
        <;>
      cases st.current <;> simp
  · intro pid t
    cases he : cfg.enabled <;>
      simp [stepN, pauseScopeCtor, pauseScopePause, histEnter, he] <;>
      cases st.current <;> simp
  · intro pid t
    cases hp : (findPause st.pauseScopes pid).getD none <;>
      cases he : cfg.enabled <;>
      simp [stepN, pauseScopeDtor, pauseScopeResume, histLeave, he, hp]
  · intro id t
    cases he : cfg.enabled
    · simp [stepN, nestedScopeStop, he]
    · cases hf : findScope st.scopes id with
      | none => simp [stepN, nestedScopeStop, nestedScopeStopInternal, he, hf]
      | some r =>
        cases hlt : r.longTask <;> cases hex : cfg.isExecute <;>
          cases hprev : r.prev <;>
          simp [stepN, nestedScopeStop, nestedScopeStopInternal, histLeave,
            recordLongTaskTime, he, hf, hlt, hex, hprev]

/-- Claim C10: a Pause Scope never adds a sample, never changes the
long-task aggregate and never emits log events over its entire lifetime;
its construction only installs the null placeholder as the stack top
(pausing the captured previous top's timer, when one exists and the
histogram is enabled) and registers the pause scope, and its destruction
only restores the captured previous top and resumes its timer (when one
was captured and the histogram is enabled) and deregisters the pause
scope. -/
theorem pause_scope_only_swaps_top (cfg : HistConfig) (st : NestedHistState)
    (pid t : Nat) :
    stepN cfg st (.beginPause pid t) =
      (if cfg.enabled then
        { st with current := none,
                  scopes := match st.current with
                    | some p => setScopeTimer st.scopes p (fun tm => tm.pause t)
                    | none => st.scopes,
                  pauseScopes := (pid, st.current) :: st.pauseScopes }
       else { st with pauseScopes := (pid, none) :: st.pauseScopes }) ∧
    stepN cfg st (.endPause pid t) =
      (match (findPause st.pauseScopes pid).getD none with
       | some p =>
          if cfg.enabled then
            { st with current := some p,
                      scopes := setScopeTimer st.scopes p (fun tm => tm.resume t),
                      pauseScopes := removePause st.pauseScopes pid }
          else { st with pauseScopes := removePause st.pauseScopes pid }
       | none => { st with pauseScopes := removePause st.pauseScopes pid }) := by
  constructor
  · cases he : cfg.enabled <;>
      cases hc : st.current <;>
      simp [stepN, pauseScopeCtor, pauseScopePause, histEnter, he, hc]
  · cases hp : (findPause st.pauseScopes pid).getD none <;>
      cases he : cfg.enabled <;>
      simp [stepN, pauseScopeDtor, pauseScopeResume, histLeave, he, hp]

/-- Mode of an OptionalTimedHistogramScope. -/
inductive OptionalTimedHistogramScopeMode where
  | TAKE_TIME
  | DONT_TAKE_TIME
deriving Repr, DecidableEq

/-- Observable outcome of a full lifetime of one of the non-nesting scope
classes: the final state of its timer_, the samples added to the
histogram, and the log events emitted (each with the context handle that
was passed, none = nullptr isolate). -/
structure ScopeOutcome where
  timer : ElapsedTimer
  samples : List Nat
  events : List (Option Nat × LogEventStatus)
deriving Repr, DecidableEq

/-- Modelled from the spec: Logger::CallEventLogger (declared in log.h, not
under src/) forwards the event to the logging sink, fire-and-forget, with
the supplied context handle. -/
def callEventLogger (isolate : Option Nat) (status : LogEventStatus)
    (events : List (Option Nat × LogEventStatus)) :
    List (Option Nat × LogEventStatus) :=
  events ++ [(isolate, status)]

/-- BaseTimedHistogramScope::Start: StartInternal (timer_.Start()) only
when the histogram is enabled. -/
def baseScopeStart (enabled : Bool) (tm : ElapsedTimer) (now : Nat) :
    ElapsedTimer :=
  if enabled then ElapsedTimer.start now else tm

/-- BaseTimedHistogramScope::Stop: StopInternal (AddTimedSample of the
elapsed duration, then timer_.Stop()) only when the histogram is
enabled. -/
def baseScopeStop (enabled : Bool) (tm : ElapsedTimer) (now : Nat)
    (samples : List Nat) : ElapsedTimer × List Nat :=
  if enabled then (tm.stop, samples ++ [tm.elapsed now]) else (tm, samples)

/-- TimedHistogramScope over its full lifetime (constructed at t0,
destroyed at t1): Start and, only when a non-null isolate was supplied,
LogStart; then Stop and, only when a non-null isolate was supplied,
LogEnd. -/
def timedHistogramScopeRun (enabled : Bool) (isolate : Option Nat)
    (t0 t1 : Nat) : ScopeOutcome :=
  let tm := baseScopeStart enabled ElapsedTimer.init t0
  let ev := if isolate.isSome then callEventLogger isolate .kStart [] else []
  let (tm2, samples) := baseScopeStop enabled tm t1 []
  let ev2 := if isolate.isSome then callEventLogger isolate .kEnd ev else ev
  ⟨tm2, samples, ev2⟩

/-- OptionalTimedHistogramScope over its full lifetime: with mode
DONT_TAKE_TIME both constructor and destructor return immediately; with
mode TAKE_TIME it runs Start, LogStart, Stop, LogEnd, the log calls made
unconditionally with the supplied isolate. -/
def optionalTimedHistogramScopeRun (enabled : Bool) (isolate : Option Nat)
    (mode : OptionalTimedHistogramScopeMode) (t0 t1 : Nat) : ScopeOutcome :=
  match mode with
  | .DONT_TAKE_TIME => ⟨ElapsedTimer.init, [], []⟩
  | .TAKE_TIME =>
    let tm := baseScopeStart enabled ElapsedTimer.init t0
    let ev := callEventLogger isolate .kStart []
    let (tm2, samples) := baseScopeStop enabled tm t1 []
    let ev2 := callEventLogger isolate .kEnd ev
    ⟨tm2, samples, ev2⟩

/-- A live LazyTimedHistogramScope object: its timer_ and its histogram_
pointer (none = nullptr, some carries the target's Enabled() flag). -/
structure LazyScopeState where
  timer : ElapsedTimer
  histogram : Option Bool
deriving Repr, DecidableEq

/-- LazyTimedHistogramScope constructor: histogram_ is nullptr and
timer_.Start() runs immediately. -/
def lazyTimedHistogramScopeInit (now : Nat) : LazyScopeState :=
  ⟨ElapsedTimer.start now, none⟩

/-- LazyTimedHistogramScope::set_histogram. -/
def lazySetHistogram (s : LazyScopeState) (enabled : Bool) : LazyScopeState :=
  { s with histogram := some enabled }

/-- LazyTimedHistogramScope destructor: Stop() dereferences histogram_ to
read Enabled(); with histogram_ still nullptr this is a null-target
failure, modelled as none. -/
def lazyTimedHistogramScopeDtor (s : LazyScopeState) (now : Nat) :
    Option (ElapsedTimer × List Nat) :=
  match s.histogram with
  | none => none
  | some enabled => some (baseScopeStop enabled s.timer now [])

/-- Claim C7 counterexample: with a null isolate and mode TAKE_TIME the
Optional Scope does not behave like a Plain Scope — it emits both log
events while the Plain Scope emits none — so the claim that TAKE_TIME
matches a Plain Scope fails as stated. -/
theorem optional_take_time_differs_from_plain_on_null_isolate :
    optionalTimedHistogramScopeRun true none .TAKE_TIME 0 5
      ≠ timedHistogramScopeRun true none 0 5 := by
  decide

/-- Claim C7 (amended): for an Optional Scope with mode DONT_TAKE_TIME, no
timer is started, no sample is recorded and no log event is emitted,
regardless of the enabled flag and of the isolate; and with mode TAKE_TIME
and a non-null isolate its behavior matches a Plain Scope exactly. -/
theorem optional_scope_mode_gates_behavior (enabled : Bool)
    (isolate : Option Nat) (iso t0 t1 : Nat) :
    optionalTimedHistogramScopeRun enabled isolate .DONT_TAKE_TIME t0 t1
      = ⟨ElapsedTimer.init, [], []⟩ ∧
    optionalTimedHistogramScopeRun enabled (some iso) .TAKE_TIME t0 t1
      = timedHistogramScopeRun enabled (some iso) t0 t1 := by
  constructor
  · rfl
  · cases enabled <;>
      simp [optionalTimedHistogramScopeRun, timedHistogramScopeRun,
        baseScopeStart, baseScopeStop, callEventLogger]

/-- Claim C8: a Lazy Scope starts its timer immediately on construction
with histogram_ null; destroying it without ever assigning a histogram is
a null-target failure (none), not a silent no-op, while after assigning an
enabled histogram the destructor stops the timer and records the elapsed
sample. -/
theorem lazy_scope_null_target_on_unset (t0 t1 : Nat) :
    (lazyTimedHistogramScopeInit t0).timer = ElapsedTimer.start t0 ∧
    (lazyTimedHistogramScopeInit t0).histogram = none ∧
    lazyTimedHistogramScopeDtor (lazyTimedHistogramScopeInit t0) t1 = none ∧
    lazyTimedHistogramScopeDtor
        (lazySetHistogram (lazyTimedHistogramScopeInit t0) true) t1
      = some ((ElapsedTimer.start t0).stop, [t1 - t0]) := by
  refine ⟨rfl, rfl, rfl, ?_⟩
  simp [lazyTimedHistogramScopeDtor, lazySetHistogram,
    lazyTimedHistogramScopeInit, baseScopeStop, ElapsedTimer.start,
    ElapsedTimer.elapsed, ElapsedTimer.stop]

/-- Claim C9: an Optional Scope in TAKE_TIME mode emits its start and end
log events unconditionally — even with a null isolate and even when the
histogram is disabled — while a Plain Scope emits log events exactly when
a non-null isolate was supplied. -/
theorem optional_scope_logs_unconditionally (enabled : Bool) (t0 t1 : Nat) :
    (optionalTimedHistogramScopeRun enabled none .TAKE_TIME t0 t1).events
      = [(none, .kStart), (none, .kEnd)] ∧
    (timedHistogramScopeRun enabled none t0 t1).events = [] ∧
    (∀ iso, (timedHistogramScopeRun enabled (some iso) t0 t1).events
      = [(some iso, .kStart), (some iso, .kEnd)]) := by
  refine ⟨?_, ?_, fun iso => ?_⟩ <;>
    cases enabled <;>
    simp [optionalTimedHistogramScopeRun, timedHistogramScopeRun,
      baseScopeStart, baseScopeStop, callEventLogger]

/-- The top-of-stack scope exists and its timer is advancing. -/
def topRunningB (scopes : List (Nat × ScopeRec)) (id : Nat) : Bool :=
  match findScope scopes id with
  | some r => !r.timer.paused
  | none => false

/-- Single-running-timer invariant over a stack top and the live scopes:
when a scope is on top, its timer is advancing and the timer of every
other live scope (in particular every ancestor along the previous-chain)
is paused; when the top is the null placeholder or the stack is empty, no
live scope's timer is advancing. -/
def stackInvB (current : Option Nat) (scopes : List (Nat × ScopeRec)) : Bool :=
  match current with
  | some id => topRunningB scopes id
      && scopes.all (fun e => e.1 == id || e.2.timer.paused)
  | none => scopes.all (fun e => e.2.timer.paused)

/-- The single-running-timer invariant of a histogram state. -/
def scopesInvB (st : NestedHistState) : Bool :=
  stackInvB st.current st.scopes

/-- Well-formedness of one lifecycle step, as guaranteed by the strict
LIFO scoped-lifetime discipline of the callers: a scope is destroyed only
while it is the top of the stack and its previous scope (if any) is still
live, and a pause scope is destroyed only after every scope entered during
the pause has left, with its captured previous scope still live. -/
def stepOKB (cfg : HistConfig) (st : NestedHistState) : NEvent → Bool
  | .enter _ _ _ => true
  | .leave id _ => !cfg.enabled || (st.current == some id &&
      (match findScope st.scopes id with
       | some r =>
         match r.prev with
         | some p => (findScope (removeScope st.scopes id) p).isSome
         | none => true
       | none => true))
  | .beginPause _ _ => true
  | .endPause pid _ => !cfg.enabled ||
      (match (findPause st.pauseScopes pid).getD none with
       | some p => (st.current == none) && (findScope st.scopes p).isSome
       | none => true)

/-- Looking up a scope after a timer update: the updated record at the
updated key, anything else unchanged. -/
theorem findScope_setScopeTimer (s : List (Nat × ScopeRec)) (p k : Nat)
    (f : ElapsedTimer → ElapsedTimer) :
    findScope (setScopeTimer s p f) k =
      if k = p then (findScope s k).map
        (fun r => { r with timer := f r.timer })
      else findScope s k := by
  induction s with
  | nil => simp [setScopeTimer, findScope]
  | cons e rest ih =>
    rcases e with ⟨a, r⟩
    simp only [setScopeTimer] at ih
    by_cases hap : a = p
    · subst hap
      by_cases hak : a = k
      · subst hak
        simp [setScopeTimer, findScope, ih]
      · have hka : ¬k = a := fun h => hak h.symm
        simp [setScopeTimer, findScope, ih, hak, hka]
    · by_cases hak : a = k
      · subst hak
        simp [setScopeTimer, findScope, hap]
      · simp [setScopeTimer, findScope, ih, hap, hak]

/-- Looking up a scope after removing one: none at the removed key,
anything else unchanged. -/
theorem findScope_removeScope (s : List (Nat × ScopeRec)) (idr k : Nat) :
    findScope (removeScope s idr) k =
      if k = idr then none else findScope s k := by
  induction s with
  | nil => simp [removeScope, findScope]
  | cons e rest ih =>
    rcases e with ⟨a, r⟩
    simp only [removeScope] at ih
    by_cases hai : a = idr
    · subst hai
      by_cases hka : k = a
      · subst hka
        simp [removeScope, findScope, ih]
      · have hak : ¬a = k := fun h => hka h.symm
        simp [removeScope, findScope, ih, hka, hak]
    · by_cases hak : a = k
      · subst hak
        simp [removeScope, findScope, hai]
      · by_cases hki : k = idr
        · subst hki
          simp [removeScope, findScope, ih, hai, hak]
        · simp [removeScope, findScope, ih, hai, hak, hki]

/-- Every element of a timer-updated scope list is either the updated
record at the updated key or an untouched element with a different key. -/
theorem mem_setScopeTimer (s : List (Nat × ScopeRec)) (p : Nat)
    (f : ElapsedTimer → ElapsedTimer) (e : Nat × ScopeRec)
    (he : e ∈ setScopeTimer s p f) :
    (∃ a ∈ s, a.1 = p ∧ e = (a.1, { a.2 with timer := f a.2.timer })) ∨
    (e ∈ s ∧ e.1 ≠ p) := by
  simp only [setScopeTimer, List.mem_map] at he
  obtain ⟨a, ha, hae⟩ := he
  by_cases hap : a.1 = p
  · exact Or.inl ⟨a, ha, hap, by rw [← hae, if_pos hap]⟩
  · rw [← hae, if_neg hap]
    exact Or.inr ⟨ha, hap⟩

/-- After pausing the only possibly-advancing scope, every live scope's
timer is paused. -/
theorem paused_after_setPause (s : List (Nat × ScopeRec)) (p t : Nat)
    (hall : ∀ a ∈ s, a.1 = p ∨ a.2.timer.paused = true) :
    ∀ e ∈ setScopeTimer s p (fun tm => tm.pause t),
      e.2.timer.paused = true := by
  intro e he
  rcases mem_setScopeTimer s p _ e he with ⟨a, _, _, rfl⟩ | ⟨hes, hep⟩
  · simp [ElapsedTimer.pause]
  · rcases hall e hes with h | h
    · exact absurd h hep
    · exact h

/-- Entering a nested scope re-establishes the single-running-timer
invariant: the new scope's timer is started and the previous top (if any)
is paused. -/
theorem inv_step_enter (cfg : HistConfig) (st : NestedHistState)
    (id : Nat) (longTask : Bool) (t : Nat) (hinv : scopesInvB st = true) :
    scopesInvB (stepN cfg st (.enter id longTask t)) = true := by
  cases he : cfg.enabled
  · simpa [stepN, nestedScopeStart, he, scopesInvB] using hinv
  · cases hc : st.current with
    | none =>
      simp only [scopesInvB, stackInvB, hc, List.all_eq_true] at hinv
      simp [stepN, nestedScopeStart, nestedScopeStartInteral, histEnter, he,
        hc, scopesInvB, stackInvB, topRunningB, findScope, ElapsedTimer.start,
        List.all_eq_true]
      intro a b hab
      exact Or.inr (hinv (a, b) hab)
    | some p =>
      simp only [scopesInvB, stackInvB, hc, Bool.and_eq_true,
        List.all_eq_true] at hinv
      obtain ⟨htop, hall⟩ := hinv
      simp [stepN, nestedScopeStart, nestedScopeStartInteral, histEnter, he,
        hc, scopesInvB, stackInvB, topRunningB, findScope, ElapsedTimer.start,
        List.all_eq_true]
      intro a b hab
      refine Or.inr (paused_after_setPause st.scopes p t ?_ (a, b) hab)
      intro x hx
      have := hall x hx
      simpa using this

/-- Constructing a pause scope re-establishes the invariant: the previous
top (if any) is paused, so with the null placeholder on top no live
scope's timer is advancing. -/
theorem inv_step_beginPause (cfg : HistConfig) (st : NestedHistState)
    (pid t : Nat) (hinv : scopesInvB st = true) :
    scopesInvB (stepN cfg st (.beginPause pid t)) = true := by
  cases he : cfg.enabled
  · simpa [stepN, pauseScopeCtor, he, scopesInvB] using hinv
  · cases hc : st.current with
    | none =>
      simp only [scopesInvB, stackInvB, hc, List.all_eq_true] at hinv
      simp [stepN, pauseScopeCtor, pauseScopePause, histEnter, he, hc,
        scopesInvB, stackInvB, List.all_eq_true]
      intro a b hab
      exact hinv (a, b) hab
    | some p =>
      simp only [scopesInvB, stackInvB, hc, Bool.and_eq_true,
        List.all_eq_true] at hinv
      obtain ⟨htop, hall⟩ := hinv
      simp [stepN, pauseScopeCtor, pauseScopePause, histEnter, he, hc,
        scopesInvB, stackInvB, List.all_eq_true]
      intro a b hab
      refine paused_after_setPause st.scopes p t ?_ (a, b) hab
      intro x hx
      have := hall x hx
      simpa using this

/-- Leaving the top nested scope re-establishes the invariant: the leaving
scope is destroyed and its previous scope (if any) is resumed and becomes
the unique advancing timer. -/
theorem inv_step_leave (cfg : HistConfig) (st : NestedHistState) (id t : Nat)
    (hok : stepOKB cfg st (.leave id t) = true)
    (hinv : scopesInvB st = true) :
    scopesInvB (stepN cfg st (.leave id t)) = true := by
  cases he : cfg.enabled
  · simpa [stepN, nestedScopeStop, he, scopesInvB] using hinv
  · simp only [stepOKB, he, Bool.not_true, Bool.false_or, Bool.and_eq_true,
      beq_iff_eq] at hok
    obtain ⟨hcur, hmatch⟩ := hok
    simp only [scopesInvB, hcur, stackInvB, Bool.and_eq_true,
      List.all_eq_true] at hinv
    obtain ⟨htop, hall⟩ := hinv
    cases hfind : findScope st.scopes id with
    | none => rw [topRunningB, hfind] at htop; exact absurd htop (by simp)
    | some r =>
      simp only [topRunningB, hfind] at htop
      simp only [hfind] at hmatch
      cases hprev : r.prev with
      | none =>
        simp only [hprev] at hmatch
        cases hlt : r.longTask <;> cases hexe : cfg.isExecute <;>
        · simp [stepN, nestedScopeStop, nestedScopeStopInternal, histLeave,
            he, hfind, hprev, hlt, hexe, scopesInvB, stackInvB,
            recordLongTaskTime, List.all_eq_true, removeScope,
            List.mem_filter]
          intro a b hab
          simpa using hall (a, b) hab
      | some p =>
        simp only [hprev] at hmatch
        rw [findScope_removeScope] at hmatch
        by_cases hpid : p = id
        · rw [if_pos hpid] at hmatch
          exact absurd hmatch (by simp)
        · rw [if_neg hpid] at hmatch
          obtain ⟨rp, hrp⟩ := Option.isSome_iff_exists.mp hmatch
          cases hlt : r.longTask <;> cases hexe : cfg.isExecute <;>
          · simp [stepN, nestedScopeStop, nestedScopeStopInternal, histLeave,
              he, hfind, hprev, hlt, hexe, scopesInvB, stackInvB, topRunningB,
              recordLongTaskTime, findScope_removeScope,
              findScope_setScopeTimer, hpid, hrp, ElapsedTimer.resume,
              List.all_eq_true]
            intro a b hab
            simp only [removeScope, List.mem_filter] at hab
            obtain ⟨hmem, hne⟩ := hab
            rcases mem_setScopeTimer st.scopes p _ (a, b) hmem with
              ⟨x, hxm, hxp, hx⟩ | ⟨hmem2, hnp⟩
            · injection hx with h1 h2
              subst h1
              exact Or.inl hxp
            · have h2 := hall (a, b) hmem2
              simp at h2 hne
              rcases h2 with h | h
              · exact absurd h hne
              · exact Or.inr h

/-- Destroying a pause scope re-establishes the invariant: the captured
previous scope (if any) is restored as top and resumed, becoming the
unique advancing timer. -/
theorem inv_step_endPause (cfg : HistConfig) (st : NestedHistState)
    (pid t : Nat) (hok : stepOKB cfg st (.endPause pid t) = true)
    (hinv : scopesInvB st = true) :
    scopesInvB (stepN cfg st (.endPause pid t)) = true := by
  cases hp : (findPause st.pauseScopes pid).getD none with
  | none =>
    simpa [stepN, pauseScopeDtor, hp, scopesInvB] using hinv
  | some p =>
    cases he : cfg.enabled
    · simpa [stepN, pauseScopeDtor, pauseScopeResume, hp, he, scopesInvB]
        using hinv
    · simp only [stepOKB, he, Bool.not_true, Bool.false_or, hp,
        Bool.and_eq_true, beq_iff_eq] at hok
      obtain ⟨hcur, hfp⟩ := hok
      obtain ⟨rp, hrp⟩ := Option.isSome_iff_exists.mp hfp
      simp only [scopesInvB, hcur, stackInvB, List.all_eq_true] at hinv
      simp [stepN, pauseScopeDtor, pauseScopeResume, histLeave, hp, he,
        scopesInvB, stackInvB, topRunningB, findScope_setScopeTimer, hrp,
        ElapsedTimer.resume, List.all_eq_true]
      intro a b hab
      rcases mem_setScopeTimer st.scopes p _ (a, b) hab with
        ⟨x, _, hxp, hx⟩ | ⟨hmem, _⟩
      · cases hx
        exact Or.inl hxp
      · exact Or.inr (hinv (a, b) hmem)

/-- Claim C2: while at least one Nested Scope is active on an enabled
histogram, exactly one timer along the previous-chain is advancing — the
current top's — and the timers of all other live scopes (in particular all
its ancestors) are paused; the invariant holds in the initial state and is
established by every Enter and re-established by every Leave (and by the
pause-scope transitions), for every well-formed LIFO step. -/
theorem nested_stack_single_running_timer :
    scopesInvB initNestedState = true ∧
    ∀ (cfg : HistConfig) (st : NestedHistState) (e : NEvent),
      stepOKB cfg st e = true → scopesInvB st = true →
        scopesInvB (stepN cfg st e) = true := by
  refine ⟨rfl, fun cfg st e hok hinv => ?_⟩
  cases e with
  | enter id longTask t => exact inv_step_enter cfg st id longTask t hinv
  | leave id t => exact inv_step_leave cfg st id t hok hinv
  | beginPause pid t => exact inv_step_beginPause cfg st pid t hinv
  | endPause pid t => exact inv_step_endPause cfg st pid t hok hinv

/-- Claim C2 witness: the invariant holds initially and is preserved by a
concrete well-formed Enter on an enabled histogram. -/
theorem nested_stack_single_running_timer_witness :
    scopesInvB initNestedState = true ∧
    scopesInvB (stepN enabledCfg initNestedState (.enter 0 false 0)) = true :=
  ⟨nested_stack_single_running_timer.1,
    nested_stack_single_running_timer.2 enabledCfg initNestedState
      (.enter 0 false 0) (by decide) (by decide)⟩

/-- A completed activation of a Nested Scope in a well-formed LIFO nesting:
its identity, the time it entered, the completed activations of its
immediate children (in order), and the time it left.  A list of trees is a
well-formed LIFO nesting of sibling activations on one histogram. -/
inductive CallTree where
  | node (id : Nat) (tEnter : Nat) (children : List CallTree) (tLeave : Nat)

/-- The time an activation entered. -/
def enterTime : CallTree → Nat
  | .node _ tE _ _ => tE

/-- The time an activation left. -/
def leaveTime : CallTree → Nat
  | .node _ _ _ tL => tL

mutual

/-- The lifecycle events of one completed activation: its enter, the events
of its children, its leave. -/
def treeEvents : CallTree → List NEvent
  | .node id tE cs tL =>
      NEvent.enter id false tE :: (forestEvents cs ++ [NEvent.leave id tL])

/-- The lifecycle events of a sequence of completed sibling activations. -/
def forestEvents : List CallTree → List NEvent
  | [] => []
  | t :: ts => treeEvents t ++ forestEvents ts

end

/-- Wall time covered by one activation. -/
def treeSpan : CallTree → Nat
  | .node _ tE _ tL => tL - tE

/-- Total wall time covered by a sequence of siblings: for their parent,
exactly the sum of the intervals during which its timer was paused, one
interval per child. -/
def forestSpan : List CallTree → Nat
  | [] => 0
  | t :: ts => treeSpan t + forestSpan ts

mutual

/-- The samples a well-formed nesting must record, in recording order:
children first, then the node's own exclusive time, which is
(time at Leave) - (time at Enter) - (sum of the paused intervals
contributed by its children). -/
def treeSamples : CallTree → List Nat
  | .node _ tE cs tL => forestSamples cs ++ [(tL - tE) - forestSpan cs]

/-- Expected samples of a sequence of siblings. -/
def forestSamples : List CallTree → List Nat
  | [] => []
  | t :: ts => treeSamples t ++ forestSamples ts

end

mutual

/-- All scope identities occurring in one activation. -/
def treeIds : CallTree → List Nat
  | .node id _ cs _ => id :: forestIds cs

/-- All scope identities occurring in a sequence of siblings. -/
def forestIds : List CallTree → List Nat
  | [] => []
  | t :: ts => treeIds t ++ forestIds ts

end

mutual

/-- Number of activations in a tree (used as an induction measure). -/
def treeCount : CallTree → Nat
  | .node _ _ cs _ => 1 + forestCount cs

/-- Number of activations in a forest. -/
def forestCount : List CallTree → Nat
  | [] => 0
  | t :: ts => treeCount t + forestCount ts

end

mutual

/-- Time well-formedness of one activation within the window [lo, hi]:
enter before leave, children bracketed inside the activation and
sequential. -/
def treeWF : Nat → CallTree → Nat → Bool
  | lo, .node _ tE cs tL, hi =>
      decide (lo ≤ tE) && decide (tE ≤ tL) && forestWF tE cs tL
        && decide (tL ≤ hi)

/-- Time well-formedness of a sequence of siblings within [lo, hi]: each
fits in the window and each begins no earlier than its predecessor left. -/
def forestWF : Nat → List CallTree → Nat → Bool
  | _, [], _ => true
  | lo, t :: ts, hi => treeWF lo t hi && forestWF (leaveTime t) ts hi

end

/-- The one pause/resume cycle a completed child activation inflicts on
its parent's timer. -/
def treePR (t : CallTree) (tm : ElapsedTimer) : ElapsedTimer :=
  (tm.pause (enterTime t)).resume (leaveTime t)

/-- The cumulative effect of a sequence of completed children on the
enclosing scope's timer: the incremental pause/resume accumulation across
all cycles. -/
def pauseResumeFold (tm : ElapsedTimer) : List CallTree → ElapsedTimer
  | [] => tm
  | t :: ts => pauseResumeFold (treePR t tm) ts

/-- Update the enclosing scope's timer when the stack had a top at the
start of a subcomputation; with an empty stack nothing is updated. -/
def parentAdjust (cur : Option Nat) (scopes : List (Nat × ScopeRec))
    (f : ElapsedTimer → ElapsedTimer) : List (Nat × ScopeRec) :=
  match cur with
  | some p => setScopeTimer scopes p f
  | none => scopes

/-- Run a sequence of lifecycle events from an arbitrary state. -/
def runList (cfg : HistConfig) (evs : List NEvent) (st : NestedHistState) :
    NestedHistState :=
  evs.foldl (stepN cfg) st

/-- Running an appended event list runs the two parts in sequence. -/
theorem runList_append (cfg : HistConfig) (a b : List NEvent)
    (st : NestedHistState) :
    runList cfg (a ++ b) st = runList cfg b (runList cfg a st) := by
  simp [runList, List.foldl_append]

/-- Running a cons event list steps once and continues. -/
theorem runList_cons (cfg : HistConfig) (e : NEvent) (evs : List NEvent)
    (st : NestedHistState) :
    runList cfg (e :: evs) st = runList cfg evs (stepN cfg st e) := rfl

/-- Running no events is the identity. -/
theorem runList_nil (cfg : HistConfig) (st : NestedHistState) :
    runList cfg [] st = st := rfl

/-- When a scope identity does not occur in the live scope list, every
entry has a different key. -/
theorem findScope_none_not_mem (s : List (Nat × ScopeRec)) (i : Nat)
    (h : findScope s i = none) : ∀ a ∈ s, (a.1 != i) = true := by
  induction s with
  | nil => intro a ha; simp at ha
  | cons e rest ih =>
    intro a ha
    by_cases he : e.1 = i
    · rw [findScope, if_pos he] at h
      exact absurd h (by simp)
    · rw [findScope, if_neg he] at h
      rcases List.mem_cons.mp ha with rfl | hrest
      · simp [bne, he]
      · exact ih h a hrest

/-- Removing an absent scope identity is a no-op. -/
theorem removeScope_of_findScope_none (s : List (Nat × ScopeRec)) (i : Nat)
    (h : findScope s i = none) : removeScope s i = s := by
  rw [removeScope]
  exact List.filter_eq_self.mpr (findScope_none_not_mem s i h)

/-- Updating the timer of an absent scope identity is a no-op. -/
theorem setScopeTimer_of_findScope_none (s : List (Nat × ScopeRec)) (i : Nat)
    (f : ElapsedTimer → ElapsedTimer) (h : findScope s i = none) :
    setScopeTimer s i f = s := by
  induction s with
  | nil => rfl
  | cons e rest ih =>
    rw [findScope] at h
    by_cases he : e.1 = i
    · rw [if_pos he] at h
      exact absurd h (by simp)
    · rw [if_neg he] at h
      have h2 := ih h
      simp only [setScopeTimer, List.map_cons] at h2 ⊢
      rw [if_neg he, h2]

/-- Timer update at the head of the scope list when the key matches. -/
theorem setScopeTimer_cons_self (k : Nat) (r : ScopeRec)
    (rest : List (Nat × ScopeRec)) (f : ElapsedTimer → ElapsedTimer) :
    setScopeTimer ((k, r) :: rest) k f
      = (k, { r with timer := f r.timer }) :: setScopeTimer rest k f := by
  simp [setScopeTimer]

/-- Timer update at the head of the scope list when the key differs. -/
theorem setScopeTimer_cons_ne (k : Nat) (r : ScopeRec)
    (rest : List (Nat × ScopeRec)) (p : Nat) (f : ElapsedTimer → ElapsedTimer)
    (h : ¬k = p) :
    setScopeTimer ((k, r) :: rest) p f = (k, r) :: setScopeTimer rest p f := by
  simp [setScopeTimer, h]

/-- Removal at the head of the scope list when the key matches. -/
theorem removeScope_cons_self (k : Nat) (r : ScopeRec)
    (rest : List (Nat × ScopeRec)) :
    removeScope ((k, r) :: rest) k = removeScope rest k := by
  simp [removeScope]

/-- Two successive timer updates at the same key compose. -/
theorem setScopeTimer_setScopeTimer (s : List (Nat × ScopeRec)) (p : Nat)
    (f g : ElapsedTimer → ElapsedTimer) :
    setScopeTimer (setScopeTimer s p f) p g
      = setScopeTimer s p (fun tm => g (f tm)) := by
  induction s with
  | nil => rfl
  | cons e rest ih =>
    simp only [setScopeTimer, List.map_cons] at ih ⊢
    by_cases he : e.1 = p
    · simp [he, ih]
    · simp [he, ih]

/-- Updating a timer with the identity function changes nothing. -/
theorem setScopeTimer_id (s : List (Nat × ScopeRec)) (p : Nat) :
    setScopeTimer s p (fun tm => tm) = s := by
  induction s with
  | nil => rfl
  | cons e rest ih =>
    simp only [setScopeTimer, List.map_cons] at ih ⊢
    rw [ih]
    by_cases he : e.1 = p
    · rw [if_pos he]
    · rw [if_neg he]

/-- Two successive parent adjustments compose. -/
theorem parentAdjust_parentAdjust (cur : Option Nat)
    (s : List (Nat × ScopeRec)) (f g : ElapsedTimer → ElapsedTimer) :
    parentAdjust cur (parentAdjust cur s f) g
      = parentAdjust cur s (fun tm => g (f tm)) := by
  cases cur with
  | none => rfl
  | some p => simp [parentAdjust, setScopeTimer_setScopeTimer]

/-- A parent adjustment cannot make an absent scope identity appear. -/
theorem findScope_parentAdjust_none (cur : Option Nat)
    (s : List (Nat × ScopeRec)) (f : ElapsedTimer → ElapsedTimer) (i : Nat)
    (h : findScope s i = none) :
    findScope (parentAdjust cur s f) i = none := by
  cases cur with
  | none => exact h
  | some p => simp [parentAdjust, findScope_setScopeTimer, h]

/-- The total span of a well-formed sequence of siblings fits inside its
window. -/
theorem forestSpan_le (F : List CallTree) : ∀ lo hi : Nat,
    forestWF lo F hi = true → lo ≤ hi → forestSpan F + lo ≤ hi := by
  induction F with
  | nil =>
    intro lo hi _ hlo
    simpa [forestSpan]
  | cons t ts ih =>
    intro lo hi hwf hlo
    obtain ⟨a, tE, cs, tL⟩ := t
    simp only [forestWF, treeWF, leaveTime, Bool.and_eq_true,
      decide_eq_true_eq] at hwf
    obtain ⟨⟨⟨⟨h1, h2⟩, h3⟩, h4⟩, h5⟩ := hwf
    have hts := ih tL hi h5 h4
    simp only [forestSpan, treeSpan]
    omega

/-- The incremental pause/resume accumulation computes exclusive time: an
advancing timer, taken through one pause/resume cycle per well-formed
child, reads at the end of the window its plain elapsed time minus the
total span of the children. -/
theorem elapsed_pauseResumeFold (F : List CallTree) :
    ∀ (tm : ElapsedTimer) (lo hi : Nat),
      forestWF lo F hi = true → tm.paused = false → tm.startTick ≤ lo →
      (pauseResumeFold tm F).elapsed hi = tm.elapsed hi - forestSpan F := by
  induction F with
  | nil =>
    intro tm lo hi _ hp _
    simp [pauseResumeFold, forestSpan]
  | cons t ts ih =>
    intro tm lo hi hwf hp hst
    obtain ⟨a, tE, cs, tL⟩ := t
    simp only [forestWF, treeWF, leaveTime, Bool.and_eq_true,
      decide_eq_true_eq] at hwf
    obtain ⟨⟨⟨⟨h1, h2⟩, h3⟩, h4⟩, h5⟩ := hwf
    have hspan := forestSpan_le ts tL hi h5 h4
    have hih := ih (treePR (CallTree.node a tE cs tL) tm) tL hi h5
      (by simp [treePR, ElapsedTimer.pause, ElapsedTimer.resume])
      (by simp [treePR, ElapsedTimer.pause, ElapsedTimer.resume, leaveTime])
    simp only [pauseResumeFold]
    rw [hih]
    simp only [treePR, enterTime, leaveTime, ElapsedTimer.pause,
      ElapsedTimer.resume, ElapsedTimer.elapsed, forestSpan, treeSpan, hp]
    simp only [Bool.false_eq_true, if_false]
    omega

/-- The full effect of one Enter on an enabled histogram: the new scope is
installed on top with a freshly started timer and the captured previous
top, whose timer (when present) is paused at the same instant. -/
theorem stepN_enter_computed (cfg : HistConfig) (st : NestedHistState)
    (A tE : Nat) (hcfg : cfg.enabled = true) :
    stepN cfg st (.enter A false tE)
      = { st with
            current := some A,
            scopes := (A, ⟨ElapsedTimer.start tE, st.current, false⟩)
              :: parentAdjust st.current st.scopes (fun tm => tm.pause tE),
            events := st.events ++ [LogEventStatus.kStart] } := by
  cases hc : st.current <;>
    simp [stepN, nestedScopeStart, nestedScopeStartInteral, histEnter, hcfg,
      parentAdjust, hc]
/-- Running an empty forest changes nothing. -/
theorem runForest_nil (cfg : HistConfig) (st : NestedHistState) :
    (runList cfg (forestEvents []) st).current = st.current ∧
    (runList cfg (forestEvents []) st).scopes
      = parentAdjust st.current st.scopes
          (fun tm => pauseResumeFold tm ([] : List CallTree)) ∧
    (runList cfg (forestEvents []) st).samples
      = st.samples ++ forestSamples ([] : List CallTree) ∧
    (runList cfg (forestEvents []) st).pauseScopes = st.pauseScopes := by
  have h0 : runList cfg (forestEvents ([] : List CallTree)) st = st := by
    simp [forestEvents, runList]
  rw [h0]
  refine ⟨rfl, ?_, by simp [forestSamples], rfl⟩
  have hpr : (fun tm => pauseResumeFold tm ([] : List CallTree))
      = fun tm => tm := by
    funext tm
    simp [pauseResumeFold]
  rw [hpr]
  cases hc : st.current <;> simp [parentAdjust, setScopeTimer_id]

/-- The full effect of one Leave (with the long-task flag clear) on an
enabled histogram when the leaving scope has no previous scope: the top
returns to null, the elapsed duration is recorded, the scope is
destroyed. -/
theorem stepN_leave_computed_none (cfg : HistConfig) (st2 : NestedHistState)
    (A tL : Nat) (tmr : ElapsedTimer) (hcfg : cfg.enabled = true)
    (hfind : findScope st2.scopes A = some ⟨tmr, none, false⟩) :
    (stepN cfg st2 (.leave A tL)).current = none ∧
    (stepN cfg st2 (.leave A tL)).scopes = removeScope st2.scopes A ∧
    (stepN cfg st2 (.leave A tL)).samples
      = st2.samples ++ [tmr.elapsed tL] ∧
    (stepN cfg st2 (.leave A tL)).pauseScopes = st2.pauseScopes := by
  simp [stepN, nestedScopeStop, nestedScopeStopInternal, histLeave,
    recordLongTaskTime, hcfg, hfind]

/-- The full effect of one Leave (with the long-task flag clear) on an
enabled histogram when the leaving scope has a previous scope: the top
returns to the previous scope, whose timer is resumed, the elapsed
duration is recorded, the scope is destroyed. -/
theorem stepN_leave_computed_some (cfg : HistConfig) (st2 : NestedHistState)
    (A tL : Nat) (tmr : ElapsedTimer) (p : Nat) (hcfg : cfg.enabled = true)
    (hfind : findScope st2.scopes A = some ⟨tmr, some p, false⟩) :
    (stepN cfg st2 (.leave A tL)).current = some p ∧
    (stepN cfg st2 (.leave A tL)).scopes
      = removeScope (setScopeTimer st2.scopes p (fun tm => tm.resume tL)) A ∧
    (stepN cfg st2 (.leave A tL)).samples
      = st2.samples ++ [tmr.elapsed tL] ∧
    (stepN cfg st2 (.leave A tL)).pauseScopes = st2.pauseScopes := by
  simp [stepN, nestedScopeStop, nestedScopeStopInternal, histLeave,
    recordLongTaskTime, hcfg, hfind]

/-- Running the events of any well-formed sequence of completed sibling
activations from an arbitrary state of an enabled histogram: the stack top
is restored, the enclosing scope's timer undergoes exactly the incremental
pause/resume accumulation of the siblings, the expected exclusive-time
samples are appended in recording order, and the pause scopes are
untouched.  Strong induction on the number of activations. -/
theorem runForest_go (n : Nat) : ∀ F : List CallTree, forestCount F ≤ n →
    ∀ (cfg : HistConfig) (st : NestedHistState) (lo hi : Nat),
      cfg.enabled = true → forestWF lo F hi = true →
      (forestIds F).Nodup →
      (∀ i ∈ forestIds F, findScope st.scopes i = none) →
      (∀ i ∈ forestIds F, st.current ≠ some i) →
      (runList cfg (forestEvents F) st).current = st.current ∧
      (runList cfg (forestEvents F) st).scopes
        = parentAdjust st.current st.scopes (fun tm => pauseResumeFold tm F) ∧
      (runList cfg (forestEvents F) st).samples
        = st.samples ++ forestSamples F ∧
      (runList cfg (forestEvents F) st).pauseScopes = st.pauseScopes := by
  induction n with
  | zero =>
    intro F hsz cfg st lo hi hcfg hwf hnodup hfresh hcur
    cases F with
    | nil => exact runForest_nil cfg st
    | cons t ts =>
      obtain ⟨A, tE, cs, tL⟩ := t
      simp only [forestCount, treeCount] at hsz
      omega
  | succ n ih =>
    intro F hsz cfg st lo hi hcfg hwf hnodup hfresh hcur
    cases F with
    | nil => exact runForest_nil cfg st
    | cons t ts =>
      obtain ⟨A, tE, cs, tL⟩ := t
      simp only [forestCount, treeCount] at hsz
      have hszcs : forestCount cs ≤ n := by omega
      have hszts : forestCount ts ≤ n := by omega
      simp only [forestWF, treeWF, leaveTime, Bool.and_eq_true,
        decide_eq_true_eq] at hwf
      obtain ⟨⟨⟨⟨hloE, hEL⟩, hwfcs⟩, hLhi⟩, hwfts⟩ := hwf
      rw [forestIds, treeIds] at hnodup hfresh hcur
      have hAid : A ∈ (A :: forestIds cs) ++ forestIds ts :=
        List.mem_append.mpr (Or.inl (List.mem_cons_self A (forestIds cs)))
      have hfreshA : findScope st.scopes A = none := hfresh A hAid
      have hcurA : st.current ≠ some A := hcur A hAid
      have hmemcs : ∀ i ∈ forestIds cs,
          i ∈ (A :: forestIds cs) ++ forestIds ts :=
        fun i hi => List.mem_append.mpr (Or.inl (List.mem_cons_of_mem A hi))
      have hmemts : ∀ i ∈ forestIds ts,
          i ∈ (A :: forestIds cs) ++ forestIds ts :=
        fun i hi => List.mem_append.mpr (Or.inr hi)
      have hnodup2 := hnodup
      rw [List.cons_append, List.nodup_cons] at hnodup2
      obtain ⟨hAnot, hndrest⟩ := hnodup2
      have hndcs : (forestIds cs).Nodup := hndrest.of_append_left
      have hndts : (forestIds ts).Nodup := hndrest.of_append_right
      have hAcs : A ∉ forestIds cs :=
        fun h => hAnot (List.mem_append.mpr (Or.inl h))
      have helap : (pauseResumeFold (ElapsedTimer.start tE) cs).elapsed tL
          = (tL - tE) - forestSpan cs := by
        have h := elapsed_pauseResumeFold cs (ElapsedTimer.start tE) tE tL
          hwfcs (by simp [ElapsedTimer.start]) (by simp [ElapsedTimer.start])
        simpa [ElapsedTimer.elapsed, ElapsedTimer.start] using h
      have hsplit : runList cfg
          (forestEvents (CallTree.node A tE cs tL :: ts)) st
          = runList cfg (forestEvents ts)
              (stepN cfg
                (runList cfg (forestEvents cs)
                  (stepN cfg st (.enter A false tE)))
                (.leave A tL)) := by
        simp [forestEvents, treeEvents, runList_append, runList_cons,
          runList_nil]
      have hST1 := stepN_enter_computed cfg st A tE hcfg
      have hcs := ih cs hszcs cfg (stepN cfg st (.enter A false tE)) tE tL
        hcfg hwfcs hndcs
        (by
          rw [hST1]
          intro i hi
          have hiA : ¬A = i := fun h => hAcs (h ▸ hi)
          have hrest := findScope_parentAdjust_none st.current st.scopes
            (fun tm => tm.pause tE) i (hfresh i (hmemcs i hi))
          simp [findScope, hiA, hrest])
        (by
          rw [hST1]
          intro i hi h
          have hAi : A = i := by simpa using h
          exact hAcs (hAi ▸ hi))
      obtain ⟨h2cur, h2scopes, h2samples, h2pauses⟩ := hcs
      rw [hsplit]
      cases hc : st.current with
      | none =>
        rw [hc] at hST1 hcurA
        have h2cur2 : (runList cfg (forestEvents cs)
            (stepN cfg st (.enter A false tE))).current = some A := by
          rw [h2cur, hST1]
        have h2samples2 : (runList cfg (forestEvents cs)
            (stepN cfg st (.enter A false tE))).samples
            = st.samples ++ forestSamples cs := by
          rw [h2samples, hST1]
        have h2pauses2 : (runList cfg (forestEvents cs)
            (stepN cfg st (.enter A false tE))).pauseScopes
            = st.pauseScopes := by
          rw [h2pauses, hST1]
        have h2scopes2 : (runList cfg (forestEvents cs)
            (stepN cfg st (.enter A false tE))).scopes
            = (A, ⟨pauseResumeFold (ElapsedTimer.start tE) cs, none, false⟩)
              :: st.scopes := by
          rw [h2scopes, hST1]
          show parentAdjust (some A)
              ((A, ⟨ElapsedTimer.start tE, none, false⟩) :: st.scopes)
              (fun tm => pauseResumeFold tm cs)
            = (A, ⟨pauseResumeFold (ElapsedTimer.start tE) cs, none, false⟩)
              :: st.scopes
          simp only [parentAdjust]
          rw [setScopeTimer_cons_self,
            setScopeTimer_of_findScope_none st.scopes A _ hfreshA]
        have hfind2 : findScope (runList cfg (forestEvents cs)
            (stepN cfg st (.enter A false tE))).scopes A
            = some ⟨pauseResumeFold (ElapsedTimer.start tE) cs, none,
                false⟩ := by
          simp [h2scopes2, findScope]
        obtain ⟨h3cur, h3scopes, h3samples, h3pauses⟩ :=
          stepN_leave_computed_none cfg
            (runList cfg (forestEvents cs)
              (stepN cfg st (.enter A false tE)))
            A tL (pauseResumeFold (ElapsedTimer.start tE) cs) hcfg hfind2
        rw [h2scopes2, removeScope_cons_self,
          removeScope_of_findScope_none st.scopes A hfreshA] at h3scopes
        rw [h2samples2, helap] at h3samples
        rw [h2pauses2] at h3pauses
        have hts := ih ts hszts cfg
          (stepN cfg (runList cfg (forestEvents cs)
            (stepN cfg st (.enter A false tE))) (.leave A tL)) tL hi
          hcfg hwfts hndts
          (by
            intro i hi2
            rw [h3scopes]
            exact hfresh i (hmemts i hi2))
          (by
            intro i hi2
            rw [h3cur]
            exact fun h => Option.noConfusion h)
        obtain ⟨h4cur, h4scopes, h4samples, h4pauses⟩ := hts
        refine ⟨?_, ?_, ?_, ?_⟩
        · rw [h4cur, h3cur]
        · rw [h4scopes, h3cur, h3scopes]
          simp [parentAdjust]
        · rw [h4samples, h3samples]
          simp [forestSamples, treeSamples]
        · rw [h4pauses, h3pauses]
      | some p =>
        rw [hc] at hST1 hcurA
        have hApne : ¬A = p := fun h => hcurA (by rw [h])
        have hYA : findScope (setScopeTimer st.scopes p
            (fun tm => tm.pause tE)) A = none := by
          simp [findScope_setScopeTimer, hApne, hfreshA]
        have h2cur2 : (runList cfg (forestEvents cs)
            (stepN cfg st (.enter A false tE))).current = some A := by
          rw [h2cur, hST1]
        have h2samples2 : (runList cfg (forestEvents cs)
            (stepN cfg st (.enter A false tE))).samples
            = st.samples ++ forestSamples cs := by
          rw [h2samples, hST1]
        have h2pauses2 : (runList cfg (forestEvents cs)
            (stepN cfg st (.enter A false tE))).pauseScopes
            = st.pauseScopes := by
          rw [h2pauses, hST1]
        have h2scopes2 : (runList cfg (forestEvents cs)
            (stepN cfg st (.enter A false tE))).scopes
            = (A, ⟨pauseResumeFold (ElapsedTimer.start tE) cs, some p, false⟩)
              :: setScopeTimer st.scopes p (fun tm => tm.pause tE) := by
          rw [h2scopes, hST1]
          show parentAdjust (some A)
              ((A, ⟨ElapsedTimer.start tE, some p, false⟩)
                :: setScopeTimer st.scopes p (fun tm => tm.pause tE))
              (fun tm => pauseResumeFold tm cs)
            = (A, ⟨pauseResumeFold (ElapsedTimer.start tE) cs, some p, false⟩)
              :: setScopeTimer st.scopes p (fun tm => tm.pause tE)
          simp only [parentAdjust]
          rw [setScopeTimer_cons_self,
            setScopeTimer_of_findScope_none _ A _ hYA]
        have hfind2 : findScope (runList cfg (forestEvents cs)
            (stepN cfg st (.enter A false tE))).scopes A
            = some ⟨pauseResumeFold (ElapsedTimer.start tE) cs, some p,
                false⟩ := by
          simp [h2scopes2, findScope]
        obtain ⟨h3cur, h3scopes, h3samples, h3pauses⟩ :=
          stepN_leave_computed_some cfg
            (runList cfg (forestEvents cs)
              (stepN cfg st (.enter A false tE)))
            A tL (pauseResumeFold (ElapsedTimer.start tE) cs) p hcfg hfind2
        rw [h2scopes2, setScopeTimer_cons_ne A _ _ p _ hApne,
          removeScope_cons_self, setScopeTimer_setScopeTimer] at h3scopes
        have hremove : removeScope (setScopeTimer st.scopes p
            (fun tm => (tm.pause tE).resume tL)) A
            = setScopeTimer st.scopes p
                (fun tm => (tm.pause tE).resume tL) := by
          apply removeScope_of_findScope_none
          simp [findScope_setScopeTimer, hApne, hfreshA]
        rw [hremove] at h3scopes
        rw [h2samples2, helap] at h3samples
        rw [h2pauses2] at h3pauses
        have hts := ih ts hszts cfg
          (stepN cfg (runList cfg (forestEvents cs)
            (stepN cfg st (.enter A false tE))) (.leave A tL)) tL hi
          hcfg hwfts hndts
          (by
            intro i hi2
            rw [h3scopes]
            simp [findScope_setScopeTimer, hfresh i (hmemts i hi2)])
          (by
            intro i hi2
            rw [h3cur]
            have h5 := hcur i (hmemts i hi2)
            rw [hc] at h5
            exact h5)
        obtain ⟨h4cur, h4scopes, h4samples, h4pauses⟩ := hts
        refine ⟨?_, ?_, ?_, ?_⟩
        · rw [h4cur, h3cur]
        · rw [h4scopes, h3cur, h3scopes]
          simp [parentAdjust, setScopeTimer_setScopeTimer, pauseResumeFold,
            treePR, enterTime, leaveTime]
        · rw [h4samples, h3samples]
          simp [forestSamples, treeSamples]
        · rw [h4pauses, h3pauses]

/-- Claim C1: for every well-formed LIFO nesting of Nested Scopes on one
enabled histogram — any forest of completed activations with distinct
identities and correctly bracketed, sequential times — the recorded
samples are exactly, scope by scope in recording order, (time at Leave)
minus (time at Enter) minus the sum of the intervals during which the
scope was paused by its children, one pause/resume cycle per child
accumulated incrementally by the timer; in particular entering A at t=0,
nested B at t=10, leaving B at t=30 and A at t=50 records B=20 then
A=(50-0)-(30-10)=30. -/
theorem nested_scope_exclusive_samples (cfg : HistConfig) (F : List CallTree)
    (lo hi : Nat) (hcfg : cfg.enabled = true)
    (hwf : forestWF lo F hi = true) (hnodup : (forestIds F).Nodup) :
    (runList cfg (forestEvents F) initNestedState).samples
      = forestSamples F := by
  have h := runForest_go (forestCount F) F (Nat.le_refl _) cfg
    initNestedState lo hi hcfg hwf hnodup (fun i _ => rfl)
    (fun i _ h => Option.noConfusion h)
  simpa [initNestedState] using h.2.2.1

/-- Claim C1 witness: scenario A — A enters at t=0, nested B at t=10, B
leaves at t=30, A at t=50 — records B=20 then A=30; and a scope with two
successive children (B over [10,30] and C over [35,45] inside A over
[0,50]) undergoes two pause/resume cycles and records B=20, C=10, then
A=(50-0)-((30-10)+(45-35))=20. -/
theorem nested_scope_exclusive_samples_witness :
    (runList enabledCfg (forestEvents
        [CallTree.node 0 0 [CallTree.node 1 10 [] 30] 50])
      initNestedState).samples = [20, 30] ∧
    (runList enabledCfg (forestEvents
        [CallTree.node 0 0 [CallTree.node 1 10 [] 30,
          CallTree.node 2 35 [] 45] 50])
      initNestedState).samples = [20, 10, 20] := by
  constructor
  · have h := nested_scope_exclusive_samples enabledCfg
      [CallTree.node 0 0 [CallTree.node 1 10 [] 30] 50] 0 50 rfl
      (by simp [forestWF, treeWF, leaveTime])
      (by simp [forestIds, treeIds])
    rw [h]
    simp [forestSamples, treeSamples, forestSpan, treeSpan]
  · have h := nested_scope_exclusive_samples enabledCfg
      [CallTree.node 0 0 [CallTree.node 1 10 [] 30,
        CallTree.node 2 35 [] 45] 50] 0 50 rfl
      (by simp [forestWF, treeWF, leaveTime])
      (by simp [forestIds, treeIds])
    rw [h]
    simp [forestSamples, treeSamples, forestSpan, treeSpan]

end CountersScopes
